import Mathlib

/-!
Verification of the AIF (Amazing Image Format) tools codec.

Shallow embedding conventions:
* a byte is a `Nat` (file bytes are < 256; the theorems do not need the bound
  except where the C code truncates, which is modelled with `%`, `&&&`, `<<<`);
* a pixel is its list of `bpp` bytes (`List Nat`), a row is a list of pixels,
  an image is a list of rows;
* the C output buffers written through a moving cursor become lists built by
  appending, and the moving input cursor of the decoder becomes structural
  recursion on the remaining byte list (the C caller always hands
  `decompress_row` a buffer of exactly `row_len` bytes, which `List.take
  row_len` reproduces for any larger backing list);
* functions that can fail (`return FALSE` / `exit`) return `Option`.
-/

namespace Aif

/-! ### Header layout constants (aif.h) -/

def AIF_CHECKSUM_OFFSET : Nat := 4

def AIF_PXL_FMT_OFFSET : Nat := 6

def AIF_COMPRESSION_OFFSET : Nat := 7

def AIF_WIDTH_OFFSET : Nat := 8

def AIF_HEIGHT_OFFSET : Nat := 12

def AIF_HEADER_SIZE : Nat := 20

def AIF_FMT_RGB8 : Nat := 1

def AIF_FMT_GRAY8 : Nat := 2

def AIF_COMPRESSION_NONE : Nat := 0

def AIF_COMPRESSION_RLE : Nat := 1

/-! ### Little-endian readers and header validity (part_000) -/

/-- `read_le_u16`: `buf[0] | buf[1] << 8`, a 16-bit value. -/
def read_le_u16 (buf : List Nat) : Nat :=
  (buf.getD 0 0 ||| (buf.getD 1 0 <<< 8)) % 65536

/-- `read_le_u32`: 32-bit little-endian read. -/
def read_le_u32 (buf : List Nat) : Nat :=
  (buf.getD 0 0 ||| (buf.getD 1 0 <<< 8) ||| (buf.getD 2 0 <<< 16) |||
    (buf.getD 3 0 <<< 24)) % 4294967296

/-- `aif_magic_valid`: the first four header bytes are `0x41 0x49 0x46 0x00`. -/
def aif_magic_valid (h : List Nat) : Bool :=
  h.getD 0 0 == 0x41 && h.getD 1 0 == 0x49 && h.getD 2 0 == 0x46 && h.getD 3 0 == 0x00

/-- `aif_format_valid`: pixel format is RGB8 or GRAY8. -/
def aif_format_valid (format : Nat) : Bool :=
  format == AIF_FMT_RGB8 || format == AIF_FMT_GRAY8

/-- `aif_dim_valid`: a dimension is valid iff it is positive. -/
def aif_dim_valid (n : Nat) : Bool :=
  decide (0 < n)

/-- The header checks `stage2_brighten` performs before touching pixel data:
magic, pixel format, both dimensions, and the compression byte. -/
def stage2_header_valid (header : List Nat) : Bool :=
  aif_magic_valid header &&
  aif_format_valid (header.getD AIF_PXL_FMT_OFFSET 0) &&
  (aif_dim_valid (read_le_u32 (header.drop AIF_WIDTH_OFFSET)) &&
   aif_dim_valid (read_le_u32 (header.drop AIF_HEIGHT_OFFSET))) &&
  (header.getD AIF_COMPRESSION_OFFSET 0 == AIF_COMPRESSION_NONE ||
   header.getD AIF_COMPRESSION_OFFSET 0 == AIF_COMPRESSION_RLE)

/-- The header checks `stage3_convert_color` performs (magic, format,
compression, dimensions). -/
def stage3_header_valid (header : List Nat) : Bool :=
  aif_magic_valid header &&
  aif_format_valid (header.getD AIF_PXL_FMT_OFFSET 0) &&
  (header.getD AIF_COMPRESSION_OFFSET 0 == AIF_COMPRESSION_NONE ||
   header.getD AIF_COMPRESSION_OFFSET 0 == AIF_COMPRESSION_RLE) &&
  (aif_dim_valid (read_le_u32 (header.drop AIF_WIDTH_OFFSET)) &&
   aif_dim_valid (read_le_u32 (header.drop AIF_HEIGHT_OFFSET)))

/-- The header checks `stage4_decompress` performs: magic, pixel format and
dimensions only — the source has no compression-byte check in this stage. -/
def stage4_header_valid (header : List Nat) : Bool :=
  aif_magic_valid header &&
  aif_format_valid (header.getD AIF_PXL_FMT_OFFSET 0) &&
  (aif_dim_valid (read_le_u32 (header.drop AIF_WIDTH_OFFSET)) &&
   aif_dim_valid (read_le_u32 (header.drop AIF_HEIGHT_OFFSET)))

/-- The header checks `stage5_compress` performs (magic, format, dimensions,
compression). -/
def stage5_header_valid (header : List Nat) : Bool :=
  aif_magic_valid header &&
  aif_format_valid (header.getD AIF_PXL_FMT_OFFSET 0) &&
  (aif_dim_valid (read_le_u32 (header.drop AIF_WIDTH_OFFSET)) &&
   aif_dim_valid (read_le_u32 (header.drop AIF_HEIGHT_OFFSET))) &&
  (header.getD AIF_COMPRESSION_OFFSET 0 == AIF_COMPRESSION_NONE ||
   header.getD AIF_COMPRESSION_OFFSET 0 == AIF_COMPRESSION_RLE)

/-! ### Checksum (compute_checksum) -/

/-- The byte-scanning loop of `compute_checksum`: two accumulators mod 256,
with the two bytes at the checksum field's offset treated as zero.  The final
`(uint16)((sum2 << 8) | sum1)` cast is `% 65536`. -/
def compute_checksum_go (bytes : List Nat) (file_size pos sum1 sum2 : Nat) : Nat :=
  if pos < file_size then
    let byte := if pos = AIF_CHECKSUM_OFFSET ∨ pos = AIF_CHECKSUM_OFFSET + 1 then 0
                else bytes.getD pos 0
    compute_checksum_go bytes file_size (pos + 1)
      ((sum1 + byte) % 256) ((sum2 + (sum1 + byte) % 256) % 256)
  else ((sum2 <<< 8) ||| sum1) % 65536
termination_by file_size - pos
decreasing_by omega

/-- `compute_checksum` over the first `file_size` bytes of the file. -/
def compute_checksum (bytes : List Nat) (file_size : Nat) : Nat :=
  compute_checksum_go bytes file_size 0 0 0

/-- One step of the checksum recurrence as the specification words it:
`sum1 = (sum1 + byte) mod 256; sum2 = (sum2 + sum1) mod 256`. -/
def checksum_step (s : Nat × Nat) (b : Nat) : Nat × Nat :=
  ((s.1 + b) % 256, (s.2 + (s.1 + b) % 256) % 256)

/-- The checksum as the specification describes it: fold the two-accumulator
recurrence over bytes `0 .. file_size - 1`, reading the two bytes at offsets 4
and 5 as zero, and return the 16-bit value `(sum2 << 8) | sum1`. -/
def checksum_spec (bytes : List Nat) (file_size : Nat) : Nat :=
  let masked := (List.range file_size).map fun pos =>
    if pos = 4 ∨ pos = 5 then 0 else bytes.getD pos 0
  let s := masked.foldl checksum_step (0, 0)
  ((s.2 <<< 8) ||| s.1) % 65536

/-! ### Row codec — encode (measure_run, write_repeat_blocks,
write_literal_blocks, compress_row) -/

/-- `measure_run row width bpp start` counts the pixels from `start` on that
are byte-identical to `row[start]`; here `p` is `row[start]` and the argument
list is the suffix of the row after `start`.  Always at least 1. -/
def measure_run (p : List Nat) : List (List Nat) → Nat
  | [] => 1
  | q :: rest => if q = p then measure_run p rest + 1 else 1

/-- The literal-gathering scan inside `compress_row`: starting after the first
literal pixel, count columns until the next run of length ≥ 2 (or row end). -/
def litCount : List (List Nat) → Nat
  | [] => 0
  | q :: rest => if 2 ≤ measure_run q rest then 0 else 1 + litCount rest

/-- `write_repeat_blocks`: emit `[chunk][pixel]` blocks, `chunk = min run 255`,
until the whole run is covered. -/
def write_repeat_blocks (pixel : List Nat) : Nat → List Nat
  | 0 => []
  | run + 1 =>
    let chunk := min (run + 1) 255
    chunk :: (pixel ++ write_repeat_blocks pixel (run + 1 - chunk))
termination_by run => run
decreasing_by simp

/-- `write_literal_blocks`: emit `[0][chunk][chunk pixels]` blocks,
`chunk = min remaining 255`, over the literal segment. -/
def write_literal_blocks : List (List Nat) → List Nat
  | [] => []
  | p :: rest =>
    let chunk := min (rest.length + 1) 255
    0 :: chunk :: (((p :: rest).take chunk).flatten ++
      write_literal_blocks ((p :: rest).drop chunk))
termination_by seg => seg.length
decreasing_by simp [List.length_drop]

/-- `compress_row`: greedy left-to-right scan; a maximal run of ≥ 2 identical
pixels becomes repeat blocks, otherwise literals are gathered until the next
such run (or row end) and emitted as literal blocks. -/
def compress_row : List (List Nat) → List Nat
  | [] => []
  | p :: rest =>
    let run := measure_run p rest
    if 2 ≤ run then
      write_repeat_blocks p run ++ compress_row (rest.drop (run - 1))
    else
      let lit := 1 + litCount rest
      write_literal_blocks ((p :: rest).take lit) ++ compress_row (rest.drop (lit - 1))
termination_by row => row.length
decreasing_by
  · simp [List.length_drop]; omega
  · simp [List.length_drop]; omega

/-- The 2-byte little-endian row-length field `aif_write_compressed_rows`
writes: `[comp_len & 0xFF, (comp_len >> 8) & 0xFF]`. -/
def le16_bytes (n : Nat) : List Nat :=
  [n &&& 255, (n >>> 8) &&& 255]

/-- `aif_write_compressed_rows`: per row, the 2-byte little-endian length of
the compressed row followed by the compressed payload; the returned stream is
their concatenation over all rows. -/
def aif_write_compressed_rows (rows : List (List (List Nat))) : List Nat :=
  (rows.map fun row => le16_bytes (compress_row row).length ++ compress_row row).flatten

/-! ### Row codec — decode (decompress_repeat_block, decompress_literal_block,
decompress_row).  `comp` below is the remaining compressed bytes after the
already-consumed ones; the block helpers return the number of bytes they
consume together with the extended output, or `none` on invalid data. -/

/-- `decompress_repeat_block` (the tag byte is already consumed): fail if the
pixel would read past the declared row length or if writing `repeat_count`
copies would overrun the output row; otherwise consume `bpp` bytes and append
`repeat_count` copies of the pixel. -/
def decompress_repeat_block (comp out : List Nat) (row_bytes bpp repeat_count : Nat) :
    Option (Nat × List Nat) :=
  if comp.length < bpp then none
  else if row_bytes < out.length + repeat_count * bpp then none
  else some (bpp, out ++ (List.replicate repeat_count (comp.take bpp)).flatten)

/-- `decompress_literal_block` (the 0 tag byte is already consumed): read the
count byte; fail on count 0, on a payload running past the declared row
length, or on an output overrun; otherwise consume `1 + count * bpp` bytes and
append the payload verbatim. -/
def decompress_literal_block (comp out : List Nat) (row_bytes bpp : Nat) :
    Option (Nat × List Nat) :=
  match comp with
  | [] => none
  | literal_count :: rest =>
    if literal_count = 0 then none
    else if rest.length < literal_count * bpp then none
    else if row_bytes < out.length + literal_count * bpp then none
    else some (1 + literal_count * bpp, out ++ rest.take (literal_count * bpp))

/-- The block loop of `decompress_row`: while output is not full and
compressed bytes remain, read a tag byte and decode one block; any block
failure fails the row. -/
def decompress_row_go (row_bytes bpp : Nat) : List Nat → List Nat → Option (List Nat)
  | [], out => some out
  | tag :: rest, out =>
    if out.length < row_bytes then
      match (if tag ≠ 0 then decompress_repeat_block rest out row_bytes bpp tag
             else decompress_literal_block rest out row_bytes bpp) with
      | none => none
      | some (used, out2) => decompress_row_go row_bytes bpp (rest.drop used) out2
    else some out
termination_by comp _ => comp.length
decreasing_by simp [List.length_drop]; omega

/-- `decompress_row comp row_len row_bytes bpp`: decode the declared
`row_len` bytes of `comp`; succeed only if the decoded bytes fill the output
row exactly. -/
def decompress_row (comp : List Nat) (row_len row_bytes bpp : Nat) : Option (List Nat) :=
  match decompress_row_go row_bytes bpp (comp.take row_len) [] with
  | none => none
  | some out => if out.length = row_bytes then some out else none

/-! ### Statement-side constructions used by individual claims -/

/-- The chunk sizes `write_repeat_blocks` uses for a run of `n` pixels. -/
def repeatChunks : Nat → List Nat
  | 0 => []
  | n + 1 =>
    let chunk := min (n + 1) 255
    chunk :: repeatChunks (n + 1 - chunk)
termination_by n => n
decreasing_by simp

/-- A GRAY8 row of `w` pixels in which no two adjacent pixels are equal. -/
def altRow : Nat → List (List Nat)
  | 0 => []
  | n + 1 => [n % 2] :: altRow n

/-- No two adjacent pixels of the row are byte-identical. -/
def noAdjEq : List (List Nat) → Prop
  | [] => True
  | [_] => True
  | p :: q :: rest => p ≠ q ∧ noAdjEq (q :: rest)

/-! ### Basic facts about the embedding -/

/-- Flattening a list of pixels of width `bpp` gives `count * bpp` bytes. -/
theorem flatten_length_px (bpp : Nat) :
    ∀ l : List (List Nat), (∀ p ∈ l, p.length = bpp) → l.flatten.length = l.length * bpp := by
  intro l
  induction l with
  | nil => simp
  | cons p rest ih =>
    intro h
    simp only [List.flatten_cons, List.length_append, List.length_cons]
    rw [h p (by simp), ih (fun q hq => h q (by simp [hq]))]
    ring

/-- Flattening `k` copies of a pixel gives `k * bpp` bytes. -/
theorem flatten_length_replicate (k : Nat) (p : List Nat) :
    (List.replicate k p).flatten.length = k * p.length := by
  induction k with
  | zero => simp
  | succ k ih => simp [List.replicate_succ, ih]; ring

theorem measure_run_pos (p : List Nat) (l : List (List Nat)) : 1 ≤ measure_run p l := by
  cases l with
  | nil => simp [measure_run]
  | cons q rest =>
    rw [measure_run]
    split <;> omega

theorem measure_run_le (p : List Nat) :
    ∀ l : List (List Nat), measure_run p l ≤ l.length + 1 := by
  intro l
  induction l with
  | nil => simp [measure_run]
  | cons q rest ih =>
    rw [measure_run]
    split
    · simp
      omega
    · simp

/-- The first `measure_run p l - 1` elements of `l` all equal `p`. -/
theorem measure_run_take (p : List Nat) :
    ∀ l : List (List Nat), l.take (measure_run p l - 1) =
      List.replicate (measure_run p l - 1) p := by
  intro l
  induction l with
  | nil => simp [measure_run]
  | cons q rest ih =>
    rw [measure_run]
    by_cases hq : q = p
    · rw [if_pos hq]
      have h1 : measure_run p rest + 1 - 1 = (measure_run p rest - 1) + 1 := by
        have := measure_run_pos p rest
        omega
      rw [h1, List.take_succ_cons, ih, hq,
        ← List.replicate_succ]
    · simp [if_neg hq]

theorem litCount_le : ∀ l : List (List Nat), litCount l ≤ l.length := by
  intro l
  induction l with
  | nil => simp [litCount]
  | cons q rest ih =>
    rw [litCount]
    split
    · simp
    · simp
      omega

/-! ### Decoding a well-formed block stream -/

set_option maxRecDepth 4000 in
/-- Decoding the repeat blocks written for a run of `n ≥ 1` copies of a pixel
consumes exactly those blocks and appends the `n` copies to the output. -/
theorem decode_repeat_stream (rb bpp : Nat) (hbpp : 1 ≤ bpp) (p : List Nat)
    (hp : p.length = bpp) :
    ∀ n, 1 ≤ n → ∀ (out rest : List Nat), out.length + n * bpp ≤ rb →
      decompress_row_go rb bpp (write_repeat_blocks p n ++ rest) out =
        decompress_row_go rb bpp rest (out ++ (List.replicate n p).flatten) := by
  intro n
  induction n using Nat.strong_induction_on with
  | _ n ih =>
    intro hn out rest hlen
    match n, hn with
    | m + 1, _ =>
      have hchunk1 : 1 ≤ min (m + 1) 255 := by omega
      have hchunkm : min (m + 1) 255 ≤ m + 1 := by omega
      have hmul : min (m + 1) 255 * bpp ≤ (m + 1) * bpp :=
        Nat.mul_le_mul_right bpp hchunkm
      have hout : out.length < rb := by
        have : 1 * bpp ≤ (m + 1) * bpp := Nat.mul_le_mul_right bpp (by omega)
        omega
      have hblock : decompress_repeat_block
          (p ++ (write_repeat_blocks p (m + 1 - min (m + 1) 255) ++ rest)) out rb bpp
          (min (m + 1) 255) =
          some (bpp, out ++ (List.replicate (min (m + 1) 255) p).flatten) := by
        rw [decompress_repeat_block, if_neg (by simp [hp]), if_neg (by omega),
          List.take_left' hp]
      rw [write_repeat_blocks]
      simp only [List.cons_append, List.append_assoc]
      rw [decompress_row_go]
      rw [if_pos hout, if_pos (show min (m + 1) 255 ≠ 0 by omega), hblock]
      dsimp only
      rw [List.drop_left' hp]
      by_cases hsplit : m + 1 ≤ 255
      · have hmin : min (m + 1) 255 = m + 1 := by omega
        rw [hmin]
        have : m + 1 - (m + 1) = 0 := by omega
        rw [this, write_repeat_blocks]
        simp [flatten_length_replicate, hp]
      · have hmin : min (m + 1) 255 = 255 := by omega
        rw [hmin]
        rw [ih (m + 1 - 255) (by omega) (by omega)
          (out ++ (List.replicate 255 p).flatten) rest
          (by
            simp only [List.length_append, flatten_length_replicate, hp]
            have : 255 * bpp + (m + 1 - 255) * bpp = (m + 1) * bpp := by
              rw [← Nat.add_mul]
              congr 1
              omega
            omega)]
        rw [List.append_assoc, ← List.flatten_append, ← List.replicate_add,
          show 255 + (m + 1 - 255) = m + 1 by omega]

set_option maxRecDepth 4000 in
/-- Decoding the literal blocks written for a literal segment consumes exactly
those blocks and appends the segment's bytes to the output. -/
theorem decode_literal_stream (rb bpp : Nat) (hbpp : 1 ≤ bpp) :
    ∀ (fuel : Nat) (seg : List (List Nat)), seg.length ≤ fuel →
      (∀ p ∈ seg, p.length = bpp) →
      ∀ (out tail : List Nat), out.length + seg.length * bpp ≤ rb →
      decompress_row_go rb bpp (write_literal_blocks seg ++ tail) out =
        decompress_row_go rb bpp tail (out ++ seg.flatten) := by
  intro fuel
  induction fuel with
  | zero =>
    intro seg hf _ out tail _
    match seg, hf with
    | [], _ => simp [write_literal_blocks]
  | succ n ih =>
    intro seg hf
    match seg with
    | [] => intro _ out tail _; simp [write_literal_blocks]
    | p :: r =>
      intro hpx out tail hlen
      simp only [List.length_cons] at hlen hf
      have hchunk1 : 1 ≤ min (r.length + 1) 255 := by omega
      have htakepx : ∀ q ∈ (p :: r).take (min (r.length + 1) 255), q.length = bpp :=
        fun q hq => hpx q (List.take_subset _ _ hq)
      have htakelen : ((p :: r).take (min (r.length + 1) 255)).flatten.length =
          min (r.length + 1) 255 * bpp := by
        rw [flatten_length_px bpp _ htakepx, List.length_take]
        congr 1
        simp
      have hmul : min (r.length + 1) 255 * bpp ≤ (r.length + 1) * bpp :=
        Nat.mul_le_mul_right bpp (by omega)
      have hout : out.length < rb := by
        have : 1 * bpp ≤ (r.length + 1) * bpp :=
          Nat.mul_le_mul_right bpp (by omega)
        omega
      have hblock : decompress_literal_block
          (min (r.length + 1) 255 :: (((p :: r).take (min (r.length + 1) 255)).flatten ++
            (write_literal_blocks ((p :: r).drop (min (r.length + 1) 255)) ++ tail)))
          out rb bpp =
          some (1 + min (r.length + 1) 255 * bpp,
            out ++ ((p :: r).take (min (r.length + 1) 255)).flatten) := by
        rw [decompress_literal_block]
        rw [if_neg (by omega),
          if_neg (by simp only [List.length_append, htakelen]; omega),
          if_neg (by omega),
          List.take_left' htakelen]
      rw [write_literal_blocks]
      simp only [List.cons_append, List.append_assoc]
      rw [decompress_row_go]
      rw [if_pos hout, if_neg (by simp), hblock]
      dsimp only
      rw [show 1 + min (r.length + 1) 255 * bpp = min (r.length + 1) 255 * bpp + 1 by omega,
        List.drop_succ_cons, List.drop_left' htakelen]
      rw [ih ((p :: r).drop (min (r.length + 1) 255))
        (by
          simp only [List.length_drop, List.length_cons]
          omega)
        (fun q hq => hpx q (List.drop_subset _ _ hq))
        (out ++ ((p :: r).take (min (r.length + 1) 255)).flatten) tail
        (by
          simp only [List.length_append, htakelen, List.length_drop, List.length_cons]
          have : min (r.length + 1) 255 * bpp + (r.length + 1 - min (r.length + 1) 255) * bpp =
              (r.length + 1) * bpp := by
            rw [← Nat.add_mul]
            congr 1
            omega
          omega)]
      rw [List.append_assoc, ← List.flatten_append, List.take_append_drop]

set_option maxRecDepth 4000 in
/-- Decoding the stream `compress_row row` consumes it entirely and appends
exactly the row's bytes to the output. -/
theorem decode_compress_stream (rb bpp : Nat) (hbpp : 1 ≤ bpp) :
    ∀ (fuel : Nat) (row : List (List Nat)), row.length ≤ fuel →
      (∀ p ∈ row, p.length = bpp) →
      ∀ (out tail : List Nat), out.length + row.length * bpp ≤ rb →
      decompress_row_go rb bpp (compress_row row ++ tail) out =
        decompress_row_go rb bpp tail (out ++ row.flatten) := by
  intro fuel
  induction fuel with
  | zero =>
    intro row hf _ out tail _
    match row, hf with
    | [], _ => simp [compress_row]
  | succ n ih =>
    intro row hf
    match row with
    | [] => intro _ out tail _; simp [compress_row]
    | p :: r =>
      intro hpx out tail hlen
      simp only [List.length_cons] at hlen hf
      have hp : p.length = bpp := hpx p (by simp)
      have hrun1 : 1 ≤ measure_run p r := measure_run_pos p r
      have hrunle : measure_run p r ≤ r.length + 1 := measure_run_le p r
      by_cases hrun : 2 ≤ measure_run p r
      · -- repeat-block case
        simp only [compress_row]
        rw [if_pos hrun, List.append_assoc]
        have hrepf : (List.replicate (measure_run p r) p).flatten.length =
            measure_run p r * bpp := by rw [flatten_length_replicate, hp]
        rw [decode_repeat_stream rb bpp hbpp p hp (measure_run p r) (by omega) out
          (compress_row (List.drop (measure_run p r - 1) r) ++ tail)
          (by
            have : measure_run p r * bpp ≤ (r.length + 1) * bpp :=
              Nat.mul_le_mul_right bpp hrunle
            omega)]
        rw [ih (List.drop (measure_run p r - 1) r)
          (by simp only [List.length_drop]; omega)
          (fun q hq => hpx q (List.mem_cons_of_mem p (List.drop_subset _ _ hq)))
          (out ++ (List.replicate (measure_run p r) p).flatten) tail
          (by
            simp only [List.length_append, hrepf, List.length_drop]
            have : measure_run p r * bpp + (r.length - (measure_run p r - 1)) * bpp =
                (r.length + 1) * bpp := by
              rw [← Nat.add_mul]
              congr 1
              omega
            omega)]
        rw [List.append_assoc, ← List.flatten_append]
        have hrow : List.replicate (measure_run p r) p ++ List.drop (measure_run p r - 1) r =
            p :: r := by
          rw [show measure_run p r = (measure_run p r - 1) + 1 by omega,
            List.replicate_succ, List.cons_append, ← measure_run_take p r]
          rw [show measure_run p r - 1 + 1 - 1 = measure_run p r - 1 by omega]
          rw [List.take_append_drop]
        rw [hrow]
      · -- literal-block case
        simp only [compress_row]
        rw [if_neg hrun, List.append_assoc,
          show 1 + litCount r - 1 = litCount r by omega]
        have hlitle : litCount r ≤ r.length := litCount_le r
        have hseglen : ((p :: r).take (1 + litCount r)).length = 1 + litCount r := by
          rw [List.length_take]
          simp
          omega
        rw [decode_literal_stream rb bpp hbpp ((p :: r).take (1 + litCount r)).length
          ((p :: r).take (1 + litCount r)) (Nat.le_refl _)
          (fun q hq => hpx q (List.take_subset _ _ hq)) out
          (compress_row (List.drop (litCount r) r) ++ tail)
          (by
            rw [hseglen]
            have : (1 + litCount r) * bpp ≤ (r.length + 1) * bpp :=
              Nat.mul_le_mul_right bpp (by omega)
            omega)]
        rw [ih (List.drop (litCount r) r)
          (by simp only [List.length_drop]; omega)
          (fun q hq => hpx q (List.mem_cons_of_mem p (List.drop_subset _ _ hq)))
          (out ++ ((p :: r).take (1 + litCount r)).flatten) tail
          (by
            rw [List.length_append,
              flatten_length_px bpp _ (fun q hq => hpx q (List.take_subset _ _ hq)),
              hseglen]
            simp only [List.length_drop]
            have : (1 + litCount r) * bpp + (r.length - litCount r) * bpp =
                (r.length + 1) * bpp := by
              rw [← Nat.add_mul]
              congr 1
              omega
            omega)]
        rw [List.append_assoc, ← List.flatten_append]
        have hdrop : List.drop (litCount r) r = (p :: r).drop (1 + litCount r) := by
          rw [show 1 + litCount r = litCount r + 1 by omega, List.drop_succ_cons]
        rw [hdrop, List.take_append_drop]

/-- Round trip for one row: decompressing the compressed stream, with declared
length equal to `compress_row`'s return value and expected output `width *
bpp`, succeeds and returns the row's bytes. -/
theorem roundtrip_row (bpp : Nat) (hbpp : 1 ≤ bpp) (row : List (List Nat))
    (hpx : ∀ p ∈ row, p.length = bpp) :
    decompress_row (compress_row row) (compress_row row).length (row.length * bpp) bpp =
      some row.flatten := by
  unfold decompress_row
  rw [List.take_length]
  have h := decode_compress_stream (row.length * bpp) bpp hbpp row.length row
    (Nat.le_refl _) hpx [] []
    (by simp)
  rw [List.append_nil, List.nil_append] at h
  rw [h, decompress_row_go]
  dsimp only
  rw [if_pos (flatten_length_px bpp row hpx)]

/-! ### Claim C1 -/

/-- C1 — Round-trip: for every row of width ≥ 1 with bpp ∈ {1,3}, decompressing
the stream produced by `compress_row` (declared compressed length =
`compress_row`'s return value, expected output length = `width * bpp`)
succeeds and reproduces the row byte-for-byte; likewise for every row of a
whole image encoded by `aif_write_compressed_rows`, whose per-row payload is
exactly `compress_row` of that row. -/
theorem compress_decompress_roundtrip (bpp : Nat) (hbpp : bpp = 1 ∨ bpp = 3)
    (row : List (List Nat)) (hw : 1 ≤ row.length) (hpx : ∀ p ∈ row, p.length = bpp)
    (rows : List (List (List Nat)))
    (hrows : ∀ r ∈ rows, 1 ≤ r.length ∧ ∀ p ∈ r, p.length = bpp) :
    decompress_row (compress_row row) (compress_row row).length (row.length * bpp) bpp =
      some row.flatten ∧
    (∀ r ∈ rows,
      decompress_row (compress_row r) (compress_row r).length (r.length * bpp) bpp =
        some r.flatten) ∧
    aif_write_compressed_rows rows =
      (rows.map fun r => le16_bytes (compress_row r).length ++ compress_row r).flatten := by
  have h1 : 1 ≤ bpp := by rcases hbpp with h | h <;> omega
  exact ⟨roundtrip_row bpp h1 row hpx,
    fun r hr => roundtrip_row bpp h1 r (hrows r hr).2, rfl⟩

/-- Witness for C1 at a concrete GRAY8 row and a one-row image. -/
theorem compress_decompress_roundtrip_witness :
    (1 ≤ ([[10], [10], [10], [50]] : List (List Nat)).length) ∧
    (∀ p ∈ ([[10], [10], [10], [50]] : List (List Nat)), p.length = 1) ∧
    (∀ r ∈ ([[[9], [9]]] : List (List (List Nat))), 1 ≤ r.length ∧
      ∀ p ∈ r, p.length = 1) ∧
    (decompress_row (compress_row [[10], [10], [10], [50]])
        (compress_row [[10], [10], [10], [50]]).length
        (([[10], [10], [10], [50]] : List (List Nat)).length * 1) 1 =
      some ([[10], [10], [10], [50]] : List (List Nat)).flatten ∧
    (∀ r ∈ ([[[9], [9]]] : List (List (List Nat))),
      decompress_row (compress_row r) (compress_row r).length (r.length * 1) 1 =
        some r.flatten) ∧
    aif_write_compressed_rows [[[9], [9]]] =
      (([[[9], [9]]] : List (List (List Nat))).map
        fun r => le16_bytes (compress_row r).length ++ compress_row r).flatten) :=
  ⟨by decide, by decide, by decide,
    compress_decompress_roundtrip 1 (Or.inl rfl) [[10], [10], [10], [50]]
      (by decide) (by decide) [[[9], [9]]] (by decide)⟩

/-! ### Claim C7 -/

theorem measure_run_replicate (p : List Nat) :
    ∀ m, measure_run p (List.replicate m p) = m + 1 := by
  intro m
  induction m with
  | zero => simp [measure_run]
  | succ k ih => rw [List.replicate_succ, measure_run, if_pos rfl, ih]

/-- A constant row of width ≥ 2 compresses to its repeat blocks alone. -/
theorem compress_row_replicate (p : List Nat) (w : Nat) (hw : 2 ≤ w) :
    compress_row (List.replicate w p) = write_repeat_blocks p w := by
  rw [show w = (w - 1) + 1 by omega, List.replicate_succ]
  simp only [compress_row]
  rw [measure_run_replicate]
  rw [if_pos (by omega)]
  rw [show w - 1 + 1 - 1 = w - 1 by omega]
  rw [List.drop_of_length_le (by simp)]
  simp [compress_row]

/-- `write_repeat_blocks` is the concatenation of one `[count][pixel]` block
per entry of `repeatChunks`. -/
theorem write_repeat_blocks_eq_chunks (p : List Nat) :
    ∀ n, write_repeat_blocks p n = ((repeatChunks n).map fun c => c :: p).flatten := by
  intro n
  induction n using Nat.strong_induction_on with
  | _ n ih =>
    match n with
    | 0 => simp [write_repeat_blocks, repeatChunks]
    | m + 1 =>
      rw [write_repeat_blocks, repeatChunks]
      simp only [List.map_cons, List.flatten_cons, List.cons_append]
      rw [ih (m + 1 - min (m + 1) 255) (by omega)]

theorem repeatChunks_sum : ∀ n, (repeatChunks n).sum = n := by
  intro n
  induction n using Nat.strong_induction_on with
  | _ n ih =>
    match n with
    | 0 => simp [repeatChunks]
    | m + 1 =>
      rw [repeatChunks]
      simp only [List.sum_cons]
      rw [ih (m + 1 - min (m + 1) 255) (by omega)]
      omega

theorem repeatChunks_length : ∀ n, 1 ≤ n → (repeatChunks n).length = (n + 254) / 255 := by
  intro n
  induction n using Nat.strong_induction_on with
  | _ n ih =>
    match n with
    | 0 => intro h; exact absurd h (by decide)
    | m + 1 =>
      intro _
      rw [repeatChunks]
      simp only [List.length_cons]
      by_cases h : m + 1 ≤ 255
      · rw [show m + 1 - min (m + 1) 255 = 0 by omega]
        simp [repeatChunks]
        omega
      · rw [show m + 1 - min (m + 1) 255 = m + 1 - 255 by omega]
        rw [ih (m + 1 - 255) (by omega) (by omega)]
        omega

theorem repeatChunks_mem : ∀ n, ∀ c ∈ repeatChunks n, 1 ≤ c ∧ c ≤ 255 := by
  intro n
  induction n using Nat.strong_induction_on with
  | _ n ih =>
    match n with
    | 0 => simp [repeatChunks]
    | m + 1 =>
      intro c hc
      rw [repeatChunks] at hc
      simp only [List.mem_cons] at hc
      rcases hc with h | h
      · omega
      · exact ih (m + 1 - min (m + 1) 255) (by omega) c h

/-- C7 — Repeat-run splitting: a constant row of width > 255 compresses to
exactly `ceil(width/255)` consecutive repeat blocks with counts in `[1,255]`
summing to `width`, and decoding reproduces the pixel `width` times. -/
theorem repeat_run_splitting (bpp : Nat) (hbpp : bpp = 1 ∨ bpp = 3) (p : List Nat)
    (hp : p.length = bpp) (w : Nat) (hw : 255 < w) :
    compress_row (List.replicate w p) = ((repeatChunks w).map fun c => c :: p).flatten ∧
    (repeatChunks w).length = (w + 254) / 255 ∧
    (repeatChunks w).sum = w ∧
    (∀ c ∈ repeatChunks w, 1 ≤ c ∧ c ≤ 255) ∧
    decompress_row (compress_row (List.replicate w p))
        (compress_row (List.replicate w p)).length (w * bpp) bpp =
      some (List.replicate w p).flatten := by
  have h1 : 1 ≤ bpp := by rcases hbpp with h | h <;> omega
  refine ⟨?_, repeatChunks_length w (by omega), repeatChunks_sum w,
    repeatChunks_mem w, ?_⟩
  · rw [compress_row_replicate p w (by omega), write_repeat_blocks_eq_chunks]
  · have h := roundtrip_row bpp h1 (List.replicate w p)
      (fun q hq => by rw [List.eq_of_mem_replicate hq, hp])
    rwa [List.length_replicate] at h

/-- Witness for C7 at `w = 256`, GRAY8 pixel `[7]`. -/
theorem repeat_run_splitting_witness :
    ((1 : Nat) = 1 ∨ (1 : Nat) = 3) ∧ ([7] : List Nat).length = 1 ∧ 255 < 256 ∧
    (compress_row (List.replicate 256 [7]) =
        ((repeatChunks 256).map fun c => c :: [7]).flatten ∧
      (repeatChunks 256).length = (256 + 254) / 255 ∧
      (repeatChunks 256).sum = 256 ∧
      (∀ c ∈ repeatChunks 256, 1 ≤ c ∧ c ≤ 255) ∧
      decompress_row (compress_row (List.replicate 256 [7]))
          (compress_row (List.replicate 256 [7])).length (256 * 1) 1 =
        some (List.replicate 256 [7]).flatten) :=
  ⟨Or.inl rfl, rfl, by decide,
    repeat_run_splitting 1 (Or.inl rfl) [7] rfl 256 (by decide)⟩

/-! ### Claim C8 -/

theorem write_repeat_blocks_length_le (p : List Nat) (bpp : Nat) (hp : p.length = bpp) :
    ∀ n, (write_repeat_blocks p n).length ≤ n * (1 + bpp) := by
  intro n
  induction n using Nat.strong_induction_on with
  | _ n ih =>
    match n with
    | 0 => simp [write_repeat_blocks]
    | m + 1 =>
      rw [write_repeat_blocks]
      simp only [List.length_cons, List.length_append, hp]
      have hrec := ih (m + 1 - min (m + 1) 255) (by omega)
      have hmul : (1 + (m + 1 - min (m + 1) 255)) * (1 + bpp) ≤ (m + 1) * (1 + bpp) :=
        Nat.mul_le_mul_right _ (by omega)
      rw [Nat.add_mul, Nat.one_mul] at hmul
      omega

set_option maxRecDepth 8000 in
/-- The exact length of the literal blocks for a segment of pixels of width
`bpp`: payload plus 2 bytes of header per chunk of up to 255 pixels. -/
theorem write_literal_blocks_length (bpp : Nat) :
    ∀ (fuel : Nat) (seg : List (List Nat)), seg.length ≤ fuel →
      (∀ p ∈ seg, p.length = bpp) →
      (write_literal_blocks seg).length =
        seg.length * bpp + 2 * ((seg.length + 254) / 255) := by
  intro fuel
  induction fuel with
  | zero =>
    intro seg hf _
    match seg, hf with
    | [], _ => simp [write_literal_blocks]
  | succ n ih =>
    intro seg hf hpx
    match seg with
    | [] => simp [write_literal_blocks]
    | p :: r =>
      simp only [List.length_cons] at hf ⊢
      rw [write_literal_blocks]
      simp only [List.length_cons, List.length_append]
      rw [flatten_length_px bpp _ (fun q hq => hpx q (List.take_subset _ _ hq))]
      rw [ih ((p :: r).drop (min (r.length + 1) 255))
        (by simp only [List.length_drop, List.length_cons]; omega)
        (fun q hq => hpx q (List.drop_subset _ _ hq))]
      simp only [List.length_take, List.length_drop, List.length_cons]
      have hchunk : min (min (r.length + 1) 255) (r.length + 1) = min (r.length + 1) 255 := by
        omega
      rw [hchunk]
      by_cases h : r.length + 1 ≤ 255
      · rw [show min (r.length + 1) 255 = r.length + 1 by omega]
        have : r.length + 1 - (r.length + 1) = 0 := by omega
        rw [this]
        have h1 : (r.length + 1 + 254) / 255 = 1 := by omega
        rw [h1]
        omega
      · rw [show min (r.length + 1) 255 = 255 by omega]
        have hsplit : 255 * bpp + (r.length + 1 - 255) * bpp = (r.length + 1) * bpp := by
          rw [← Nat.add_mul]
          congr 1
          omega
        have hdiv : (r.length + 1 + 254) / 255 = 1 + (r.length + 1 - 255 + 254) / 255 := by
          omega
        omega

set_option maxRecDepth 8000 in
theorem compress_row_length_le (bpp : Nat) (hbpp : 1 ≤ bpp) :
    ∀ (fuel : Nat) (row : List (List Nat)), row.length ≤ fuel →
      (∀ p ∈ row, p.length = bpp) →
      (compress_row row).length ≤ row.length * (bpp + 2) := by
  intro fuel
  induction fuel with
  | zero =>
    intro row hf _
    match row, hf with
    | [], _ => simp [compress_row]
  | succ n ih =>
    intro row hf hpx
    match row with
    | [] => simp [compress_row]
    | p :: r =>
      simp only [List.length_cons] at hf ⊢
      have hp : p.length = bpp := hpx p (by simp)
      have hrun1 : 1 ≤ measure_run p r := measure_run_pos p r
      have hrunle : measure_run p r ≤ r.length + 1 := measure_run_le p r
      by_cases hrun : 2 ≤ measure_run p r
      · simp only [compress_row]
        rw [if_pos hrun]
        simp only [List.length_append]
        have h1 := write_repeat_blocks_length_le p bpp hp (measure_run p r)
        have h2 := ih (r.drop (measure_run p r - 1))
          (by simp only [List.length_drop]; omega)
          (fun q hq => hpx q (List.mem_cons_of_mem p (List.drop_subset _ _ hq)))
        simp only [List.length_drop] at h2
        have h3 : measure_run p r * (1 + bpp) ≤ measure_run p r * (bpp + 2) :=
          Nat.mul_le_mul_left _ (by omega)
        have h4 : measure_run p r * (bpp + 2) +
            (r.length - (measure_run p r - 1)) * (bpp + 2) = (r.length + 1) * (bpp + 2) := by
          rw [← Nat.add_mul]
          congr 1
          omega
        omega
      · simp only [compress_row]
        rw [if_neg hrun, show 1 + litCount r - 1 = litCount r by omega]
        simp only [List.length_append]
        have hlit : litCount r ≤ r.length := litCount_le r
        have hseglen : ((p :: r).take (1 + litCount r)).length = 1 + litCount r := by
          rw [List.length_take]
          simp
          omega
        have h1 := write_literal_blocks_length bpp ((p :: r).take (1 + litCount r)).length
          ((p :: r).take (1 + litCount r)) (Nat.le_refl _)
          (fun q hq => hpx q (List.take_subset _ _ hq))
        rw [hseglen] at h1
        have h2 := ih (r.drop (litCount r))
          (by simp only [List.length_drop]; omega)
          (fun q hq => hpx q (List.mem_cons_of_mem p (List.drop_subset _ _ hq)))
        simp only [List.length_drop] at h2
        have hceil : (1 + litCount r + 254) / 255 ≤ 1 + litCount r := by omega
        have h3 : (1 + litCount r) * bpp + 2 * (1 + litCount r) =
            (1 + litCount r) * (bpp + 2) := by ring
        have h4 : (1 + litCount r) * (bpp + 2) + (r.length - litCount r) * (bpp + 2) =
            (r.length + 1) * (bpp + 2) := by
          rw [← Nat.add_mul]
          congr 1
          omega
        omega

/-- C8 — Worst-case output bound: `compress_row` writes at most
`width * (bpp + 2)` bytes, the size of the buffer `aif_write_compressed_rows`
allocates per row. -/
theorem compress_row_worst_case_bound (bpp : Nat) (hbpp : bpp = 1 ∨ bpp = 3)
    (row : List (List Nat)) (hw : 1 ≤ row.length)
    (hpx : ∀ p ∈ row, p.length = bpp) :
    (compress_row row).length ≤ row.length * (bpp + 2) := by
  have h1 : 1 ≤ bpp := by rcases hbpp with h | h <;> omega
  exact compress_row_length_le bpp h1 row.length row (Nat.le_refl _) hpx

/-- Witness for C8 at a concrete RGB8 row. -/
theorem compress_row_worst_case_bound_witness :
    ((3 : Nat) = 1 ∨ (3 : Nat) = 3) ∧
    (1 ≤ ([[1, 2, 3], [4, 5, 6]] : List (List Nat)).length) ∧
    (∀ p ∈ ([[1, 2, 3], [4, 5, 6]] : List (List Nat)), p.length = 3) ∧
    (compress_row [[1, 2, 3], [4, 5, 6]]).length ≤
      ([[1, 2, 3], [4, 5, 6]] : List (List Nat)).length * (3 + 2) :=
  ⟨Or.inr rfl, by decide, by decide,
    compress_row_worst_case_bound 3 (Or.inr rfl) [[1, 2, 3], [4, 5, 6]]
      (by decide) (by decide)⟩

/-! ### Claim C2 -/

/-- C2 — Malformed decode rejection: (a) a literal block with declared count 0
fails; (b) a repeat block whose pixel, or a literal block whose
`count * bpp` payload, would read past the declared compressed row length
fails; (c) a block whose output would run past `width * bpp` fails; a failing
block fails the whole row; and (d) `decompress_row` only succeeds with exactly
`width * bpp` decoded bytes. -/
theorem malformed_decode_rejection :
    (∀ (rest out : List Nat) (rb bpp : Nat),
      decompress_literal_block (0 :: rest) out rb bpp = none) ∧
    (∀ (comp out : List Nat) (rb bpp tag : Nat), comp.length < bpp →
      decompress_repeat_block comp out rb bpp tag = none) ∧
    (∀ (cnt : Nat) (rest out : List Nat) (rb bpp : Nat), rest.length < cnt * bpp →
      decompress_literal_block (cnt :: rest) out rb bpp = none) ∧
    (∀ (comp out : List Nat) (rb bpp tag : Nat), bpp ≤ comp.length →
      rb < out.length + tag * bpp →
      decompress_repeat_block comp out rb bpp tag = none) ∧
    (∀ (cnt : Nat) (rest out : List Nat) (rb bpp : Nat), cnt ≠ 0 →
      cnt * bpp ≤ rest.length → rb < out.length + cnt * bpp →
      decompress_literal_block (cnt :: rest) out rb bpp = none) ∧
    (∀ (tag : Nat) (rest out : List Nat) (rb bpp : Nat), out.length < rb →
      (if tag ≠ 0 then decompress_repeat_block rest out rb bpp tag
       else decompress_literal_block rest out rb bpp) = none →
      decompress_row_go rb bpp (tag :: rest) out = none) ∧
    (∀ (comp : List Nat) (row_len rb bpp : Nat) (out : List Nat),
      decompress_row comp row_len rb bpp = some out → out.length = rb) := by
  refine ⟨?_, ?_, ?_, ?_, ?_, ?_, ?_⟩
  · intro rest out rb bpp
    rw [decompress_literal_block, if_pos rfl]
  · intro comp out rb bpp tag h
    rw [decompress_repeat_block, if_pos h]
  · intro cnt rest out rb bpp h
    rw [decompress_literal_block]
    by_cases hc : cnt = 0
    · rw [if_pos hc]
    · rw [if_neg hc, if_pos h]
  · intro comp out rb bpp tag h1 h2
    rw [decompress_repeat_block, if_neg (by omega), if_pos h2]
  · intro cnt rest out rb bpp h1 h2 h3
    rw [decompress_literal_block, if_neg h1, if_neg (by omega), if_pos h3]
  · intro tag rest out rb bpp hout hblock
    rw [decompress_row_go, if_pos hout, hblock]
  · intro comp row_len rb bpp out h
    unfold decompress_row at h
    rcases hgo : decompress_row_go rb bpp (List.take row_len comp) [] with _ | o
    · rw [hgo] at h
      exact absurd h (by simp)
    · rw [hgo] at h
      dsimp only at h
      split at h
      · cases h
        assumption
      · exact absurd h (by simp)

/-- Witness for C2: each rejection at a concrete malformed input, and the
exact-length postcondition at a concrete successful decode. -/
theorem malformed_decode_rejection_witness :
    decompress_literal_block (0 :: [7]) [] 4 1 = none ∧
    (([] : List Nat).length < 1 ∧ decompress_repeat_block [] [] 4 1 5 = none) ∧
    (([9] : List Nat).length < 2 * 1 ∧ decompress_literal_block (2 :: [9]) [] 4 1 = none) ∧
    (1 ≤ ([8] : List Nat).length ∧ 0 < ([] : List Nat).length + 5 * 1 ∧
      decompress_repeat_block [8] [] 0 1 5 = none) ∧
    ((1 : Nat) ≠ 0 ∧ 1 * 1 ≤ ([9] : List Nat).length ∧ 0 < ([] : List Nat).length + 1 * 1 ∧
      decompress_literal_block (1 :: [9]) [] 0 1 = none) ∧
    (([] : List Nat).length < 4 ∧
      (if (1 : Nat) ≠ 0 then decompress_repeat_block [] [] 4 1 1
       else decompress_literal_block [] [] 4 1) = none ∧
      decompress_row_go 4 1 (1 :: []) [] = none) ∧
    (decompress_row [1, 42] 2 1 1 = some [42] ∧ ([42] : List Nat).length = 1) :=
  ⟨malformed_decode_rejection.1 [7] [] 4 1,
    ⟨by decide, malformed_decode_rejection.2.1 [] [] 4 1 5 (by decide)⟩,
    ⟨by decide, malformed_decode_rejection.2.2.1 2 [9] [] 4 1 (by decide)⟩,
    ⟨by decide, by decide,
      malformed_decode_rejection.2.2.2.1 [8] [] 0 1 5 (by decide) (by decide)⟩,
    ⟨by decide, by decide, by decide,
      malformed_decode_rejection.2.2.2.2.1 1 [9] [] 0 1 (by decide) (by decide) (by decide)⟩,
    ⟨by decide, by decide,
      malformed_decode_rejection.2.2.2.2.2.1 1 [] [] 4 1 (by decide) (by decide)⟩,
    ⟨by simp [decompress_row, decompress_row_go, decompress_repeat_block],
      malformed_decode_rejection.2.2.2.2.2.2 [1, 42] 2 1 1 [42]
        (by simp [decompress_row, decompress_row_go, decompress_repeat_block])⟩⟩

/-! ### Claim C9 -/

/-- A successful repeat block is preserved when the compressed row is extended
with trailing bytes, and consumes no more than the original bytes. -/
theorem decompress_repeat_block_extend (comp out : List Nat) (rb bpp tag used : Nat)
    (out2 t : List Nat)
    (h : decompress_repeat_block comp out rb bpp tag = some (used, out2)) :
    used ≤ comp.length ∧
      decompress_repeat_block (comp ++ t) out rb bpp tag = some (used, out2) := by
  rw [decompress_repeat_block] at h
  by_cases h1 : comp.length < bpp
  · rw [if_pos h1] at h
    exact absurd h (by simp)
  · rw [if_neg h1] at h
    by_cases h2 : rb < out.length + tag * bpp
    · rw [if_pos h2] at h
      exact absurd h (by simp)
    · rw [if_neg h2] at h
      simp only [Option.some.injEq, Prod.mk.injEq] at h
      obtain ⟨hu, ho⟩ := h
      subst hu
      subst ho
      refine ⟨by omega, ?_⟩
      rw [decompress_repeat_block, if_neg (by simp; omega), if_neg h2,
        List.take_append_of_le_length (by omega)]

/-- A successful literal block is preserved when the compressed row is
extended with trailing bytes, and consumes no more than the original bytes. -/
theorem decompress_literal_block_extend (comp out : List Nat) (rb bpp used : Nat)
    (out2 t : List Nat)
    (h : decompress_literal_block comp out rb bpp = some (used, out2)) :
    used ≤ comp.length ∧
      decompress_literal_block (comp ++ t) out rb bpp = some (used, out2) := by
  match comp with
  | [] =>
    rw [decompress_literal_block] at h
    exact absurd h (by simp)
  | cnt :: rest =>
    rw [decompress_literal_block] at h
    by_cases h1 : cnt = 0
    · rw [if_pos h1] at h
      exact absurd h (by simp)
    · rw [if_neg h1] at h
      by_cases h2 : rest.length < cnt * bpp
      · rw [if_pos h2] at h
        exact absurd h (by simp)
      · rw [if_neg h2] at h
        by_cases h3 : rb < out.length + cnt * bpp
        · rw [if_pos h3] at h
          exact absurd h (by simp)
        · rw [if_neg h3] at h
          simp only [Option.some.injEq, Prod.mk.injEq] at h
          obtain ⟨hu, ho⟩ := h
          subst hu
          subst ho
          refine ⟨by simp; omega, ?_⟩
          rw [List.cons_append, decompress_literal_block, if_neg h1,
            if_neg (by simp; omega), if_neg h3,
            List.take_append_of_le_length (by omega)]

/-- A successful full-length decode is unchanged by trailing declared bytes:
once the output cursor reaches `row_bytes` the loop stops and ignores them. -/
theorem decode_go_extend (rb bpp : Nat) :
    ∀ (fuel : Nat) (comp : List Nat), comp.length ≤ fuel →
      ∀ (out t res : List Nat), decompress_row_go rb bpp comp out = some res →
      res.length = rb →
      decompress_row_go rb bpp (comp ++ t) out = some res := by
  intro fuel
  induction fuel with
  | zero =>
    intro comp hf out t res h hres
    match comp, hf with
    | [], _ =>
      rw [decompress_row_go] at h
      simp only [Option.some.injEq] at h
      subst h
      rw [List.nil_append]
      match t with
      | [] => rw [decompress_row_go]
      | tag :: r => rw [decompress_row_go, if_neg (by omega)]
  | succ n ih =>
    intro comp hf out t res h hres
    match comp with
    | [] =>
      rw [decompress_row_go] at h
      simp only [Option.some.injEq] at h
      subst h
      rw [List.nil_append]
      match t with
      | [] => rw [decompress_row_go]
      | tag :: r => rw [decompress_row_go, if_neg (by omega)]
    | tag :: rest =>
      simp only [List.length_cons] at hf
      rw [decompress_row_go] at h
      by_cases hout : out.length < rb
      · rw [if_pos hout] at h
        rcases hb : (if tag ≠ 0 then decompress_repeat_block rest out rb bpp tag
                     else decompress_literal_block rest out rb bpp) with _ | ub
        · rw [hb] at h
          exact absurd h (by simp)
        · rw [hb] at h
          dsimp only at h
          obtain ⟨used, out2⟩ := ub
          by_cases htag : tag ≠ 0
          · rw [if_pos htag] at hb
            obtain ⟨hle, hext⟩ :=
              decompress_repeat_block_extend rest out rb bpp tag used out2 t hb
            rw [List.cons_append, decompress_row_go, if_pos hout, if_pos htag, hext]
            dsimp only
            rw [List.drop_append_of_le_length hle]
            exact ih (rest.drop used) (by simp only [List.length_drop]; omega)
              out2 t res h hres
          · rw [if_neg htag] at hb
            obtain ⟨hle, hext⟩ :=
              decompress_literal_block_extend rest out rb bpp used out2 t hb
            rw [List.cons_append, decompress_row_go, if_pos hout, if_neg htag, hext]
            dsimp only
            rw [List.drop_append_of_le_length hle]
            exact ih (rest.drop used) (by simp only [List.length_drop]; omega)
              out2 t res h hres
      · rw [if_neg hout] at h
        simp only [Option.some.injEq] at h
        subst h
        rw [List.cons_append, decompress_row_go, if_neg hout]

/-- C9 — `decompress_row`'s success condition only requires the output cursor
to reach exactly `width * bpp`, not the compressed cursor to reach the
declared row length: a successful decode stays successful when the declared
length covers extra trailing bytes, which are silently ignored — concretely,
`[01 2A]` followed by the trailing byte `63` under declared length 3 still
decodes to `[42]`. -/
theorem decode_ignores_trailing_declared_bytes :
    (∀ (comp t : List Nat) (rb bpp : Nat) (res : List Nat),
      decompress_row comp comp.length rb bpp = some res →
      decompress_row (comp ++ t) (comp ++ t).length rb bpp = some res) ∧
    decompress_row [1, 42, 99] 3 1 1 = some [42] := by
  constructor
  · intro comp t rb bpp res h
    unfold decompress_row at h ⊢
    rw [List.take_length] at h ⊢
    rcases hgo : decompress_row_go rb bpp comp [] with _ | o
    · rw [hgo] at h
      exact absurd h (by simp)
    · rw [hgo] at h
      dsimp only at h
      by_cases hol : o.length = rb
      · rw [if_pos hol] at h
        simp only [Option.some.injEq] at h
        subst h
        rw [decode_go_extend rb bpp comp.length comp (Nat.le_refl _) [] t o hgo hol]
        dsimp only
        rw [if_pos hol]
      · rw [if_neg hol] at h
        exact absurd h (by simp)
  · simp [decompress_row, decompress_row_go, decompress_repeat_block]

/-- Witness for C9: the trailing-byte extension applied at a concrete decode. -/
theorem decode_ignores_trailing_declared_bytes_witness :
    decompress_row [1, 42] ([1, 42] : List Nat).length 1 1 = some [42] ∧
    decompress_row ([1, 42] ++ [99]) (([1, 42] ++ [99] : List Nat)).length 1 1 =
      some [42] :=
  ⟨by simp [decompress_row, decompress_row_go, decompress_repeat_block],
    decode_ignores_trailing_declared_bytes.1 [1, 42] [99] 1 1 [42]
      (by simp [decompress_row, decompress_row_go, decompress_repeat_block])⟩

/-! ### Claims C3 and C4 -/

/-- The checksum loop equals a fold of `checksum_step` over the masked bytes
at positions `pos .. file_size - 1`. -/
theorem compute_checksum_go_spec (bytes : List Nat) (fs : Nat) :
    ∀ (k pos s1 s2 : Nat), fs - pos ≤ k →
      compute_checksum_go bytes fs pos s1 s2 =
        (fun s : Nat × Nat => ((s.2 <<< 8) ||| s.1) % 65536)
          (((List.range' pos (fs - pos)).map fun i =>
            if i = 4 ∨ i = 5 then 0 else bytes.getD i 0).foldl checksum_step (s1, s2)) := by
  intro k
  induction k with
  | zero =>
    intro pos s1 s2 hk
    have hpos : ¬ pos < fs := by omega
    rw [compute_checksum_go, if_neg hpos, show fs - pos = 0 by omega]
    simp
  | succ k ih =>
    intro pos s1 s2 hk
    by_cases hpos : pos < fs
    · rw [compute_checksum_go, if_pos hpos]
      dsimp only
      rw [ih (pos + 1) _ _ (by omega)]
      rw [show fs - pos = (fs - (pos + 1)) + 1 by omega, List.range'_succ]
      simp only [List.map_cons, List.foldl_cons]
      simp [checksum_step, AIF_CHECKSUM_OFFSET]
    · rw [compute_checksum_go, if_neg hpos, show fs - pos = 0 by omega]
      simp

/-- C3 — Checksum algorithm: `compute_checksum` equals the two-accumulator sum
of the specification, with the two bytes at offsets 4 and 5 (the checksum
field) read as zero and the result `(sum2 << 8) | sum1`. -/
theorem compute_checksum_correct (bytes : List Nat) (file_size : Nat) :
    compute_checksum bytes file_size = checksum_spec bytes file_size := by
  unfold compute_checksum checksum_spec
  rw [compute_checksum_go_spec bytes file_size file_size 0 0 0 (by omega)]
  rw [List.range_eq_range']
  simp

/-- The checksum loop only depends on the bytes at positions below
`file_size` outside the checksum field. -/
theorem compute_checksum_go_congr (b1 b2 : List Nat) (fs : Nat)
    (hb : ∀ i, i < fs → i ≠ 4 → i ≠ 5 → b1.getD i 0 = b2.getD i 0) :
    ∀ (k pos s1 s2 : Nat), fs - pos ≤ k →
      compute_checksum_go b1 fs pos s1 s2 = compute_checksum_go b2 fs pos s1 s2 := by
  intro k
  induction k with
  | zero =>
    intro pos s1 s2 hk
    have hpos : ¬ pos < fs := by omega
    rw [compute_checksum_go, if_neg hpos, compute_checksum_go, if_neg hpos]
  | succ k ih =>
    intro pos s1 s2 hk
    by_cases hpos : pos < fs
    · conv_lhs => rw [compute_checksum_go]
      conv_rhs => rw [compute_checksum_go]
      rw [if_pos hpos, if_pos hpos]
      dsimp only
      have hbyte : (if pos = AIF_CHECKSUM_OFFSET ∨ pos = AIF_CHECKSUM_OFFSET + 1 then 0
            else b1.getD pos 0) =
          (if pos = AIF_CHECKSUM_OFFSET ∨ pos = AIF_CHECKSUM_OFFSET + 1 then 0
            else b2.getD pos 0) := by
        by_cases hp : pos = AIF_CHECKSUM_OFFSET ∨ pos = AIF_CHECKSUM_OFFSET + 1
        · rw [if_pos hp, if_pos hp]
        · rw [if_neg hp, if_neg hp]
          simp only [AIF_CHECKSUM_OFFSET] at hp
          exact hb pos hpos (by omega) (by omega)
      rw [hbyte]
      exact ih (pos + 1) _ _ (by omega)
    · rw [compute_checksum_go, if_neg hpos, compute_checksum_go, if_neg hpos]

/-- C4 — Checksum fixed point: splicing the checksum's two little-endian
bytes (`c & 0xFF`, `(c >> 8) & 0xFF`) into the header's checksum field at
offsets 4 and 5, as every mutating stage does, leaves the recomputed checksum
unchanged. -/
theorem checksum_fixed_point (bytes : List Nat) (file_size : Nat) :
    compute_checksum
      ((bytes.set AIF_CHECKSUM_OFFSET (compute_checksum bytes file_size &&& 255)).set
        (AIF_CHECKSUM_OFFSET + 1) ((compute_checksum bytes file_size >>> 8) &&& 255))
      file_size = compute_checksum bytes file_size := by
  unfold compute_checksum
  apply compute_checksum_go_congr _ _ _ _ file_size 0 0 0 (by omega)
  intro i hi h4 h5
  simp only [List.getD_eq_getElem?_getD, AIF_CHECKSUM_OFFSET]
  rw [List.getElem?_set_ne (by omega), List.getElem?_set_ne (by omega)]

/-! ### Claim C5 -/

/-- C5 — code-bug evidence: a header with valid magic, pixel format RGB8
(= 1), width = height = 1, but compression byte 7
(outside {NONE, RLE}) is rejected by the validation sequences of
`stage2_brighten`, `stage3_convert_color` and `stage5_compress`, yet passes
the validation sequence of `stage4_decompress`, which the source comments as
"Same style of validation as earlier stages" but omits the compression
check. -/
theorem stage4_missing_compression_check :
    stage2_header_valid
        [0x41, 0x49, 0x46, 0x00, 0, 0, 1, 7, 1, 0, 0, 0, 1, 0, 0, 0, 0, 0, 0, 0] = false ∧
    stage3_header_valid
        [0x41, 0x49, 0x46, 0x00, 0, 0, 1, 7, 1, 0, 0, 0, 1, 0, 0, 0, 0, 0, 0, 0] = false ∧
    stage5_header_valid
        [0x41, 0x49, 0x46, 0x00, 0, 0, 1, 7, 1, 0, 0, 0, 1, 0, 0, 0, 0, 0, 0, 0] = false ∧
    stage4_header_valid
        [0x41, 0x49, 0x46, 0x00, 0, 0, 1, 7, 1, 0, 0, 0, 1, 0, 0, 0, 0, 0, 0, 0] = true := by
  decide

/-! ### Claim C6 -/

/-- C6 counterexample: on the GRAY8 row `[10, 10, 10, 50]`, `compress_row`
does not produce the 4-byte stream `[03 0A 00 32]` claimed by the
specification, and decoding that 4-byte stream fails instead of reproducing
the row (its literal block declares count 0x32 = 50 with only one payload
byte left). -/
theorem scenario_stream_counterexample :
    compress_row [[10], [10], [10], [50]] ≠ [0x03, 0x0A, 0x00, 0x32] ∧
    decompress_row [0x03, 0x0A, 0x00, 0x32] 4 4 1 ≠ some [10, 10, 10, 50] := by
  constructor
  · simp [compress_row, measure_run, litCount, write_repeat_blocks, write_literal_blocks]
  · simp [decompress_row, decompress_row_go, decompress_repeat_block,
      decompress_literal_block]

/-- C6 amended — the encoded stream for the GRAY8 row `[10, 10, 10, 50]` is
the 5-byte `[03 0A 00 01 32]`: a repeat block `[count=3][pixel=0x0A]` followed
by a literal block `[tag=0][count=1][pixel=0x32]` (the count byte `01` is part
of the stream); decoding that stream reproduces `[10, 10, 10, 50]`. -/
theorem scenario_stream_amended :
    compress_row [[10], [10], [10], [50]] = [0x03, 0x0A, 0x00, 0x01, 0x32] ∧
    decompress_row [0x03, 0x0A, 0x00, 0x01, 0x32] 5 4 1 = some [10, 10, 10, 50] := by
  constructor
  · simp [compress_row, measure_run, litCount, write_repeat_blocks, write_literal_blocks]
  · simp [decompress_row, decompress_row_go, decompress_repeat_block,
      decompress_literal_block]

/-! ### Claim C10 -/

theorem altRow_length : ∀ w, (altRow w).length = w := by
  intro w
  induction w with
  | zero => simp [altRow]
  | succ n ih => simp [altRow, ih]

theorem altRow_px : ∀ w, ∀ p ∈ altRow w, p.length = 1 := by
  intro w
  induction w with
  | zero => simp [altRow]
  | succ n ih =>
    intro p hp
    rw [altRow] at hp
    rcases List.mem_cons.1 hp with h | h
    · rw [h]
      rfl
    · exact ih p h

theorem altRow_noAdjEq : ∀ w, noAdjEq (altRow w) := by
  intro w
  induction w with
  | zero => simp [altRow, noAdjEq]
  | succ n ih =>
    match n, ih with
    | 0, _ => simp [altRow, noAdjEq]
    | m + 1, ih =>
      rw [altRow]
      rw [show altRow (m + 1) = [m % 2] :: altRow m from rfl] at ih ⊢
      exact ⟨by simp; omega, ih⟩

theorem noAdjEq_tail (p : List Nat) (r : List (List Nat)) (h : noAdjEq (p :: r)) :
    noAdjEq r := by
  match r with
  | [] => trivial
  | x :: r2 => exact h.2

theorem measure_run_noAdjEq (p : List Nat) (r : List (List Nat))
    (h : noAdjEq (p :: r)) : measure_run p r = 1 := by
  match r with
  | [] => rfl
  | x :: r2 =>
    rw [measure_run, if_neg (fun he => h.1 he.symm)]

theorem litCount_noAdjEq : ∀ l : List (List Nat), noAdjEq l → litCount l = l.length := by
  intro l
  induction l with
  | nil => simp [litCount]
  | cons q r ih =>
    intro h
    rw [litCount, if_neg (by rw [measure_run_noAdjEq q r h]; omega),
      ih (noAdjEq_tail q r h)]
    simp only [List.length_cons]
    omega

/-- A row with no two adjacent pixels equal compresses to one maximal literal
segment: the whole row. -/
theorem compress_row_noAdjEq (l : List (List Nat)) (h : noAdjEq l) :
    compress_row l = write_literal_blocks l := by
  match l with
  | [] => simp [compress_row, write_literal_blocks]
  | p :: r =>
    simp only [compress_row]
    rw [if_neg (by rw [measure_run_noAdjEq p r h]; omega)]
    rw [litCount_noAdjEq r (noAdjEq_tail p r h)]
    rw [List.take_of_length_le (by simp only [List.length_cons]; omega),
      show 1 + r.length - 1 = r.length by omega,
      List.drop_of_length_le (by omega)]
    simp [compress_row]

/-- `read_le_u16` of the stored 2-byte row length recovers the compressed
length modulo 2^16. -/
theorem read_le16_bytes (n : Nat) : read_le_u16 (le16_bytes n) = n % 65536 := by
  unfold read_le_u16 le16_bytes
  have hshift : n >>> 8 = n / 256 := by
    have := Nat.shiftRight_eq_div_pow n 8
    norm_num at this
    exact this
  have h1 : n &&& 255 = n % 256 := by
    have := Nat.and_pow_two_sub_one_eq_mod n 8
    norm_num at this
    exact this
  have h2 : n / 256 &&& 255 = n / 256 % 256 := by
    have := Nat.and_pow_two_sub_one_eq_mod (n / 256) 8
    norm_num at this
    exact this
  simp only [List.getD_eq_getElem?_getD, List.getElem?_cons_zero,
    List.getElem?_cons_succ, Option.getD_some]
  rw [hshift, h1, h2, Nat.shiftLeft_eq]
  have h3 : n % 256 ||| n / 256 % 256 * 2 ^ 8 = 2 ^ 8 * (n / 256 % 256) + n % 256 := by
    rw [Nat.or_comm, Nat.mul_comm (n / 256 % 256) (2 ^ 8)]
    exact (Nat.mul_add_lt_is_or (by omega) _).symm
  rw [h3]
  have h4 : (2 : Nat) ^ 8 = 256 := by norm_num
  rw [h4]
  omega

/-- C10 — `aif_write_compressed_rows` stores each row's compressed length in
its 2-byte little-endian length field as the length reduced modulo 2^16: the
stored field recovers the true payload length exactly when it is at most
65535, and for the GRAY8 row `altRow 65026` (no two adjacent pixels equal,
compressed length 65538 > 65535) the stored field reads back 2 ≠ 65538. -/
theorem row_length_field_wraps_mod_2_16 :
    (∀ (row : List (List Nat)) (rows : List (List (List Nat))),
      aif_write_compressed_rows (row :: rows) =
        le16_bytes (compress_row row).length ++
          (compress_row row ++ aif_write_compressed_rows rows)) ∧
    (∀ n, read_le_u16 (le16_bytes n) = n % 65536) ∧
    (∀ row : List (List Nat), (compress_row row).length ≤ 65535 →
      read_le_u16 (le16_bytes (compress_row row).length) = (compress_row row).length) ∧
    ((compress_row (altRow 65026)).length = 65538 ∧
      read_le_u16 (le16_bytes ((compress_row (altRow 65026)).length)) = 2 ∧
      (2 : Nat) ≠ 65538) := by
  have hlen : (compress_row (altRow 65026)).length = 65538 := by
    rw [compress_row_noAdjEq (altRow 65026) (altRow_noAdjEq 65026)]
    rw [write_literal_blocks_length 1 (altRow 65026).length (altRow 65026)
      (Nat.le_refl _) (altRow_px 65026)]
    rw [altRow_length]
  refine ⟨?_, read_le16_bytes, ?_, hlen, ?_, by omega⟩
  · intro row rows
    simp [aif_write_compressed_rows]
  · intro row h
    rw [read_le16_bytes]
    omega
  · rw [hlen, read_le16_bytes]

/-- Witness for C10: the exact-length reading at a short concrete row. -/
theorem row_length_field_wraps_witness :
    ((compress_row [[5]]).length ≤ 65535) ∧
    read_le_u16 (le16_bytes (compress_row [[5]]).length) = (compress_row [[5]]).length :=
  have h : compress_row [[5]] = [0, 1, 5] := by
    simp [compress_row, measure_run, litCount, write_literal_blocks]
  ⟨by rw [h]; decide,
    row_length_field_wraps_mod_2_16.2.2.1 [[5]] (by rw [h]; decide)⟩

end Aif
